import Mathlib

/-!
Verification of the core logic of the get-active-deployment action.

The development shallowly embeds the TypeScript sources:
  - the paginated deployment resolver (fetchDeployments / fetchDeploymentStatus),
  - the conventional-commit parser (conventionalCommit / extractCommitMetadata),
  - the commit relevance pipeline (processCommits),
  - the git log reader (gitLog) and the grouping step (groupCommits),
  - the top-level orchestration (run).

Strings are embedded as List Char.  External effects (the GraphQL client,
process execution, the GitHub REST client) are passed in as explicit inputs:
a list of page responses for the resolver, per-commit exit codes and parsed
stdout for the relevance pipeline, and Except-valued results for the
orchestrator.
-/

namespace ReleaseAction

/-- Convenience conversion from a string literal to the List Char embedding. -/
def strL (s : String) : List Char := s.toList

/-! ## Deployment resolver (fetchDeployments / fetchDeploymentStatus) -/

/-- One node of the GraphQL deployments response: databaseId and state. -/
structure DeploymentNode where
  databaseId : Nat
  state : List Char
  deriving DecidableEq, Repr

/-- The pageInfo part of one GraphQL response page. -/
structure PageInfo where
  hasNextPage : Bool
  endCursor : List Char
  deriving DecidableEq, Repr

/-- One page of the paginated deployments response. -/
structure Page where
  nodes : List DeploymentNode
  pageInfo : PageInfo
  deriving DecidableEq, Repr

/-- One page request issued by the resolver: the page size and the cursor
passed to fetchDeployments (none on the first request, where the source
passes an undefined cursor). -/
structure Request where
  first : Nat
  cursor : Option (List Char)
  deriving DecidableEq, Repr

/-- The filter predicate of the source:
d.state === "ACTIVE" or d.state === "INACTIVE", compared case-sensitively. -/
def isQualifying (d : DeploymentNode) : Bool :=
  decide (d.state = strL "ACTIVE") || decide (d.state = strL "INACTIVE")

/-- The inner for-loop of fetchDeploymentStatus over the filtered nodes of one
page: while found equals nth the loop breaks, otherwise it records the node id
and increments found.  Returns the final (found, deploymentId) pair. -/
def scanPage (nth : Nat) : Nat → Option Nat → List DeploymentNode → Nat × Option Nat
  | found, lastId, [] => (found, lastId)
  | found, lastId, d :: ds =>
    if found = nth then (found, lastId)
    else scanPage nth (found + 1) (some d.databaseId) ds

/-- The while-hasNextPage loop of fetchDeploymentStatus, driven by the list of
page responses the remote returns to the successive requests.  The first
component collects the requests issued (page size and cursor), the second is
the final deploymentId.  An empty response list means the remote supplied no
further response, in which case no further request is recorded. -/
def fetchDeploymentStatusGo (nth : Nat) :
    Option (List Char) → Nat → Option Nat → List Page → List Request × Option Nat
  | _, _, lastId, [] => ([], lastId)
  | cursor, found, lastId, p :: rest =>
    let st := scanPage nth found lastId (p.nodes.filter isQualifying)
    if p.pageInfo.hasNextPage then
      let next := fetchDeploymentStatusGo nth (some p.pageInfo.endCursor) st.1 st.2 rest
      (⟨20, cursor⟩ :: next.1, next.2)
    else
      ([⟨20, cursor⟩], st.2)

/-- The result of fetchDeploymentStatus: deploymentId if set, otherwise null. -/
def fetchDeploymentStatus (nth : Nat) (pages : List Page) : Option Nat :=
  (fetchDeploymentStatusGo nth none 0 none pages).2

/-- The sequence of page requests fetchDeploymentStatus issues. -/
def fetchRequests (nth : Nat) (pages : List Page) : List Request :=
  (fetchDeploymentStatusGo nth none 0 none pages).1

/-- The qualifying nodes of all pages concatenated, in response order. -/
def qualNodes : List Page → List DeploymentNode
  | [] => []
  | p :: rest => p.nodes.filter isQualifying ++ qualNodes rest

/-- A well-formed pagination: at least one page, every page but the last
reports hasNextPage, and the last page does not. -/
def properPaginationB : List Page → Bool
  | [] => false
  | [p] => !p.pageInfo.hasNextPage
  | p :: rest => p.pageInfo.hasNextPage && properPaginationB rest

/-- The id the scan has recorded after walking a list of qualifying nodes
without hitting the break: the id of the last node walked, or the incoming
value when no node was walked. -/
def lastIdAfter (lastId : Option Nat) : List DeploymentNode → Option Nat
  | [] => lastId
  | d :: ds => lastIdAfter (some d.databaseId) ds

lemma lastIdAfter_nil (lastId : Option Nat) : lastIdAfter lastId [] = lastId := rfl

lemma lastIdAfter_some (x : Nat) (l : List DeploymentNode) :
    lastIdAfter (some x) l = some ((l.getLast?.map (fun d => d.databaseId)).getD x) := by
  induction l generalizing x with
  | nil => rfl
  | cons d ds ih =>
    show lastIdAfter (some d.databaseId) ds = _
    rw [ih d.databaseId, List.getLast?_cons]
    cases h : ds.getLast? <;> simp [h]

lemma lastIdAfter_none_eq_map (l : List DeploymentNode) :
    lastIdAfter none l = l.getLast?.map (fun d => d.databaseId) := by
  cases l with
  | nil => rfl
  | cons d ds =>
    show lastIdAfter (some d.databaseId) ds = _
    rw [lastIdAfter_some, List.getLast?_cons]
    cases h : ds.getLast? <;> simp [h]

lemma scanPage_of_found_eq (nth : Nat) (lastId : Option Nat) (l : List DeploymentNode) :
    scanPage nth nth lastId l = (nth, lastId) := by
  cases l <;> simp [scanPage]

lemma scanPage_append (nth : Nat) (l1 l2 : List DeploymentNode) :
    ∀ (found : Nat) (lastId : Option Nat),
      scanPage nth found lastId (l1 ++ l2) =
        scanPage nth (scanPage nth found lastId l1).1 (scanPage nth found lastId l1).2 l2 := by
  induction l1 with
  | nil => intro found lastId; simp [scanPage]
  | cons d ds ih =>
    intro found lastId
    by_cases h : found = nth
    · subst h
      simp [scanPage, scanPage_of_found_eq]
    · simp [scanPage, h, ih]

/-- Extensional characterization of the per-page scan: from a counter that has
not passed the target, the scan walks min (nth - found) l.length further
qualifying nodes, incrementing the counter per node and recording the id of
the last node walked. -/
lemma scanPage_eq_spec (nth : Nat) :
    ∀ (l : List DeploymentNode) (found : Nat) (lastId : Option Nat), found ≤ nth →
      scanPage nth found lastId l =
        (found + min (nth - found) l.length, lastIdAfter lastId (l.take (nth - found))) := by
  intro l
  induction l with
  | nil => intro found lastId _; simp [scanPage, lastIdAfter_nil]
  | cons d ds ih =>
    intro found lastId h
    by_cases hf : found = nth
    · subst hf
      simp [scanPage_of_found_eq, Nat.sub_self, lastIdAfter_nil]
    · have hlt : found < nth := lt_of_le_of_ne h hf
      have hm : nth - found = (nth - (found + 1)) + 1 := by omega
      have hstep : scanPage nth found lastId (d :: ds) =
          scanPage nth (found + 1) (some d.databaseId) ds := by
        simp [scanPage, hf]
      rw [hstep, ih (found + 1) (some d.databaseId) hlt, hm]
      simp only [List.take_succ_cons, List.length_cons, Nat.succ_min_succ]
      refine Prod.ext ?_ rfl
      show found + 1 + min (nth - (found + 1)) ds.length =
        found + (min (nth - (found + 1)) ds.length + 1)
      omega

lemma scanPage_fst_le (nth : Nat) (l : List DeploymentNode) (found : Nat)
    (lastId : Option Nat) (h : found ≤ nth) :
    (scanPage nth found lastId l).1 ≤ nth := by
  rw [scanPage_eq_spec nth l found lastId h]
  have := Nat.min_le_left (nth - found) l.length
  omega

lemma fetchGo_cons_true (nth : Nat) (cursor : Option (List Char)) (found : Nat)
    (lastId : Option Nat) (p : Page) (rest : List Page)
    (hn : p.pageInfo.hasNextPage = true) :
    fetchDeploymentStatusGo nth cursor found lastId (p :: rest) =
      (⟨20, cursor⟩ :: (fetchDeploymentStatusGo nth (some p.pageInfo.endCursor)
          (scanPage nth found lastId (p.nodes.filter isQualifying)).1
          (scanPage nth found lastId (p.nodes.filter isQualifying)).2 rest).1,
       (fetchDeploymentStatusGo nth (some p.pageInfo.endCursor)
          (scanPage nth found lastId (p.nodes.filter isQualifying)).1
          (scanPage nth found lastId (p.nodes.filter isQualifying)).2 rest).2) := by
  simp [fetchDeploymentStatusGo, hn]

lemma fetchGo_cons_false (nth : Nat) (cursor : Option (List Char)) (found : Nat)
    (lastId : Option Nat) (p : Page) (rest : List Page)
    (hn : p.pageInfo.hasNextPage = false) :
    fetchDeploymentStatusGo nth cursor found lastId (p :: rest) =
      ([⟨20, cursor⟩],
       (scanPage nth found lastId (p.nodes.filter isQualifying)).2) := by
  simp [fetchDeploymentStatusGo, hn]

/-- The final deploymentId of the paginated loop agrees with a single scan of
the concatenated qualifying nodes, provided the pagination is well formed. -/
lemma fetchGo_snd (nth : Nat) :
    ∀ (pages : List Page) (cursor : Option (List Char)) (found : Nat) (lastId : Option Nat),
      properPaginationB pages = true →
      (fetchDeploymentStatusGo nth cursor found lastId pages).2 =
        (scanPage nth found lastId (qualNodes pages)).2 := by
  intro pages
  induction pages with
  | nil => intro _ _ _ hp; simp [properPaginationB] at hp
  | cons p rest ih =>
    intro cursor found lastId hp
    cases rest with
    | nil =>
      have hn : p.pageInfo.hasNextPage = false := by
        simpa [properPaginationB] using hp
      rw [fetchGo_cons_false nth cursor found lastId p [] hn]
      simp [qualNodes]
    | cons q rs =>
      have hn : p.pageInfo.hasNextPage = true := by
        simp [properPaginationB] at hp
        exact hp.1
      have hp2 : properPaginationB (q :: rs) = true := by
        simp [properPaginationB] at hp
        exact hp.2
      rw [fetchGo_cons_true nth cursor found lastId p (q :: rs) hn]
      show (fetchDeploymentStatusGo nth (some p.pageInfo.endCursor)
          (scanPage nth found lastId (p.nodes.filter isQualifying)).1
          (scanPage nth found lastId (p.nodes.filter isQualifying)).2 (q :: rs)).2 = _
      rw [ih _ _ _ hp2]
      rw [show qualNodes (p :: q :: rs) =
        p.nodes.filter isQualifying ++ qualNodes (q :: rs) from rfl, scanPage_append]

/-- The requests the loop issues, as a function of the initial cursor and the
pages: one request of size 20 per page, chained through endCursor. -/
def expectedReqs : Option (List Char) → List Page → List Request
  | _, [] => []
  | cursor, p :: rest =>
    ⟨20, cursor⟩ ::
      (if p.pageInfo.hasNextPage then expectedReqs (some p.pageInfo.endCursor) rest else [])

lemma fetchGo_fst (nth : Nat) :
    ∀ (pages : List Page) (cursor : Option (List Char)) (found : Nat) (lastId : Option Nat),
      (fetchDeploymentStatusGo nth cursor found lastId pages).1 = expectedReqs cursor pages := by
  intro pages
  induction pages with
  | nil => intro _ _ _; rfl
  | cons p rest ih =>
    intro cursor found lastId
    by_cases hn : p.pageInfo.hasNextPage
    · simp [fetchDeploymentStatusGo, expectedReqs, hn, ih]
    · simp [fetchDeploymentStatusGo, expectedReqs, hn]

lemma expectedReqs_cons (cursor : Option (List Char)) (p : Page) (rest : List Page) :
    expectedReqs cursor (p :: rest) = ⟨20, cursor⟩ ::
      (if p.pageInfo.hasNextPage then expectedReqs (some p.pageInfo.endCursor) rest
       else []) := rfl

lemma expectedReqs_spec :
    ∀ (pages : List Page) (cursor : Option (List Char)),
      properPaginationB pages = true →
      (expectedReqs cursor pages).length = pages.length
      ∧ (∀ r ∈ expectedReqs cursor pages, r.first = 20)
      ∧ (expectedReqs cursor pages).get? 0 = some ⟨20, cursor⟩
      ∧ ∀ k, k + 1 < pages.length →
          (expectedReqs cursor pages).get? (k + 1) =
            (pages.get? k).map (fun p => ⟨20, some p.pageInfo.endCursor⟩) := by
  intro pages
  induction pages with
  | nil => intro _ hp; simp [properPaginationB] at hp
  | cons p rest ih =>
    intro cursor hp
    cases rest with
    | nil =>
      have hn : p.pageInfo.hasNextPage = false := by
        simpa [properPaginationB] using hp
      have he : expectedReqs cursor [p] = [⟨20, cursor⟩] := by
        rw [expectedReqs_cons, if_neg]
        simp [hn]
      refine ⟨by simp [he], ?_, by simp [he], ?_⟩
      · intro r hr
        rw [he] at hr
        simp at hr
        subst hr
        rfl
      · intro k hk
        simp at hk
    | cons q rs =>
      have hn : p.pageInfo.hasNextPage = true := by
        simp [properPaginationB] at hp
        exact hp.1
      have hp2 : properPaginationB (q :: rs) = true := by
        simp [properPaginationB] at hp
        exact hp.2
      obtain ⟨ihlen, ihmem, ihhead, ihtail⟩ := ih (some p.pageInfo.endCursor) hp2
      have he : expectedReqs cursor (p :: q :: rs) =
          ⟨20, cursor⟩ :: expectedReqs (some p.pageInfo.endCursor) (q :: rs) := by
        rw [expectedReqs_cons, if_pos hn]
      refine ⟨?_, ?_, ?_, ?_⟩
      · rw [he]
        simp [ihlen]
      · intro r hr
        rw [he] at hr
        rcases List.mem_cons.mp hr with h1 | h2
        · subst h1; rfl
        · exact ihmem r h2
      · rw [he]
        rfl
      · intro k hk
        rw [he]
        cases k with
        | zero =>
          simpa using ihhead
        | succ j =>
          have hj : j + 1 < (q :: rs).length := by
            simp at hk ⊢
            omega
          simpa using ihtail j hj

/-- Claim C1 (amended): for every well-formed sequence of paginated responses,
fetchDeploymentStatus returns the id of the nth qualifying node (state exactly
ACTIVE or exactly INACTIVE, case-sensitively) counting newest-first across
page boundaries when at least nth qualify; it returns null when no node
qualifies; and when at least one but fewer than nth qualify it returns the id
of the last qualifying node rather than null.  All three cases are captured
by: the result is the id of the last element of the first nth qualifying
nodes, or null when that list is empty. -/
theorem claim1_amended (nth : Nat) (pages : List Page)
    (hp : properPaginationB pages = true) :
    fetchDeploymentStatus nth pages =
      ((qualNodes pages).take nth).getLast?.map (fun d => d.databaseId) := by
  unfold fetchDeploymentStatus
  rw [fetchGo_snd nth pages none 0 none hp,
    scanPage_eq_spec nth (qualNodes pages) 0 none (Nat.zero_le nth)]
  simp [lastIdAfter_none_eq_map]

/-- Claim C1 counterexample: a single page whose only qualifying node has id 5,
queried with nth = 2.  Only one node qualifies, so the claim as stated demands
null, but the code returns the id of the last qualifying node, 5. -/
theorem claim1_counterexample :
    fetchDeploymentStatus 2 [⟨[⟨5, strL "ACTIVE"⟩], ⟨false, []⟩⟩] = some 5
    ∧ (qualNodes [⟨[⟨5, strL "ACTIVE"⟩], ⟨false, []⟩⟩]).length = 1 := by
  constructor <;> rfl

/-- Claim C1 witness: the amended statement applied to a concrete two-page
response with nth = 2. -/
theorem claim1_witness :
    properPaginationB [⟨[⟨3, strL "ACTIVE"⟩, ⟨9, strL "Foo"⟩], ⟨true, strL "c1"⟩⟩,
        ⟨[⟨2, strL "INACTIVE"⟩], ⟨false, []⟩⟩] = true
    ∧ fetchDeploymentStatus 2 [⟨[⟨3, strL "ACTIVE"⟩, ⟨9, strL "Foo"⟩], ⟨true, strL "c1"⟩⟩,
        ⟨[⟨2, strL "INACTIVE"⟩], ⟨false, []⟩⟩] =
      ((qualNodes [⟨[⟨3, strL "ACTIVE"⟩, ⟨9, strL "Foo"⟩], ⟨true, strL "c1"⟩⟩,
        ⟨[⟨2, strL "INACTIVE"⟩], ⟨false, []⟩⟩]).take 2).getLast?.map (fun d => d.databaseId) :=
  ⟨by decide, claim1_amended 2 _ (by decide)⟩

/-- Loop body described by claim C2, followed verbatim: the scan of a page
stops when the running counter equals nth - 1, otherwise it records the id
and increments.  Written only to be compared against scanPage, which is the
loop the source actually runs. -/
def scanPageClaim (nth : Nat) : Nat → Option Nat → List DeploymentNode → Nat × Option Nat
  | found, lastId, [] => (found, lastId)
  | found, lastId, d :: ds =>
    if found = nth - 1 then (found, lastId)
    else scanPageClaim nth (found + 1) (some d.databaseId) ds

/-- Claim C2 (amended): the match loop of a page stops when foundCount equals
nth (the count of recorded nodes has already reached the target); otherwise it
records lastSeenId and increments foundCount.  Extensionally: from a counter
found ≤ nth the scan records min (nth - found) (page matches) further nodes. -/
theorem claim2_amended (nth : Nat) (l : List DeploymentNode) (found : Nat)
    (lastId : Option Nat) (h : found ≤ nth) :
    scanPage nth found lastId l =
      (found + min (nth - found) l.length, lastIdAfter lastId (l.take (nth - found))) :=
  scanPage_eq_spec nth l found lastId h

/-- Claim C2 counterexample: on a page with a single matching node of id 7 and
nth = 1, the loop described by the claim (break once foundCount = nth - 1 = 0)
would record nothing, while the loop in the source records node 7; the two
disagree on this concrete input. -/
theorem claim2_counterexample :
    scanPage 1 0 none [⟨7, strL "ACTIVE"⟩] = (1, some 7)
    ∧ scanPageClaim 1 0 none [⟨7, strL "ACTIVE"⟩] = (0, none)
    ∧ scanPageClaim 1 0 none [⟨7, strL "ACTIVE"⟩] ≠ scanPage 1 0 none [⟨7, strL "ACTIVE"⟩] := by
  refine ⟨rfl, rfl, by decide⟩

/-- Claim C2 witness: the amended statement applied to a concrete page of
three matching nodes with nth = 2 and a zero counter. -/
theorem claim2_witness :
    (0 : Nat) ≤ 2
    ∧ scanPage 2 0 none [⟨7, strL "ACTIVE"⟩, ⟨6, strL "INACTIVE"⟩, ⟨5, strL "ACTIVE"⟩] =
      (0 + min (2 - 0) [⟨7, strL "ACTIVE"⟩, ⟨6, strL "INACTIVE"⟩,
        (⟨5, strL "ACTIVE"⟩ : DeploymentNode)].length,
       lastIdAfter none ([⟨7, strL "ACTIVE"⟩, ⟨6, strL "INACTIVE"⟩,
        (⟨5, strL "ACTIVE"⟩ : DeploymentNode)].take (2 - 0))) :=
  ⟨Nat.zero_le 2, claim2_amended 2 _ 0 none (Nat.zero_le 2)⟩

/-- Claim C5: for every well-formed sequence of paginated responses the
resolver issues exactly one request per page, every request uses page size 20,
the first request carries a null cursor, and the request for page k+1 carries
the endCursor of page k unchanged. -/
theorem claim5 (nth : Nat) (pages : List Page) (hp : properPaginationB pages = true) :
    (fetchRequests nth pages).length = pages.length
    ∧ (∀ r ∈ fetchRequests nth pages, r.first = 20)
    ∧ (fetchRequests nth pages).get? 0 = some ⟨20, none⟩
    ∧ ∀ k, k + 1 < pages.length →
        (fetchRequests nth pages).get? (k + 1) =
          (pages.get? k).map (fun p => ⟨20, some p.pageInfo.endCursor⟩) := by
  unfold fetchRequests
  rw [fetchGo_fst nth pages none 0 none]
  exact expectedReqs_spec pages none hp

/-- Claim C5 witness: the statement applied to a concrete two-page response. -/
theorem claim5_witness :
    properPaginationB [⟨[⟨4, strL "Foo"⟩], ⟨true, strL "cur"⟩⟩,
        ⟨[⟨2, strL "ACTIVE"⟩], ⟨false, []⟩⟩] = true
    ∧ (fetchRequests 1 [⟨[⟨4, strL "Foo"⟩], ⟨true, strL "cur"⟩⟩,
        ⟨[⟨2, strL "ACTIVE"⟩], ⟨false, []⟩⟩]).length =
      [⟨[⟨4, strL "Foo"⟩], ⟨true, strL "cur"⟩⟩,
        (⟨[⟨2, strL "ACTIVE"⟩], ⟨false, []⟩⟩ : Page)].length :=
  ⟨by decide, (claim5 1 _ (by decide)).1⟩

/-! ## Conventional commit parser (conventionalCommit / extractCommitMetadata)

The source matches a message against the JavaScript regular expression
anchored at the start of the message: one of eleven literal types, an
optional parenthesized scope group (an opening parenthesis, a greedy
nonempty run of dot characters, a closing parenthesis), then a colon, a
space, and a greedy nonempty run of dot characters captured as the
description.  The embedding below reproduces the backtracking behavior of
that regex: the alternation is deterministic because no type is a literal
prefix of another, and the greedy scope group retries ever shorter inner
runs until the remainder of the pattern matches. -/

/-- Characters matched by the JavaScript regex dot: anything except the four
line terminators. -/
def jsDot (c : Char) : Bool :=
  !(decide (c = '\n') || decide (c = '\r') || decide (c = '\u2028') || decide (c = '\u2029'))

/-- The fixed type alternation of the source regex, in source order. -/
def ctypes : List (List Char) :=
  [strL "build", strL "chore", strL "ci", strL "docs", strL "feat", strL "fix",
   strL "perf", strL "refactor", strL "revert", strL "style", strL "test"]

/-- Literal prefix test used by the anchored alternation. -/
def startsWith : List Char → List Char → Bool
  | [], _ => true
  | a :: as, msg =>
    match msg with
    | [] => false
    | b :: bs => decide (a = b) && startsWith as bs

/-- The anchored type alternation: the unique type of the alternation that is
a literal prefix of the message, paired with the remainder of the message. -/
def matchType (message : List Char) : Option (List Char × List Char) :=
  (ctypes.find? (fun t => startsWith t message)).map (fun t => (t, message.drop t.length))

/-- Matching of the regex tail after the optional group: a colon, a space,
then a greedy nonempty run of dot characters, which is the description
capture. -/
def matchColonDesc : List Char → Option (List Char)
  | ':' :: ' ' :: rest =>
    let d := rest.takeWhile jsDot
    if d.isEmpty then none else some d
  | _ => none

/-- One backtracking attempt for the scope group after its opening
parenthesis: an inner run of exactly i dot characters, a closing parenthesis,
then the regex tail.  Returns the inner run and the description capture. -/
def tryInner (s : List Char) (i : Nat) : Option (List Char × List Char) :=
  if i = 0 then none
  else if !(s.take i).all jsDot then none
  else
    match s.drop i with
    | [] => none
    | c :: rest2 =>
      if c = ')' then (matchColonDesc rest2).map (fun d => (s.take i, d)) else none

/-- Greedy matching of the scope group body: the engine lets the inner run
consume as much as possible and backtracks one character at a time, so the
largest inner length for which the remainder of the pattern matches wins. -/
def findGreedy (s : List Char) : Nat → Option (List Char × List Char)
  | 0 => none
  | i + 1 => (tryInner s (i + 1)).orElse (fun _ => findGreedy s i)

/-- The structured metadata the source extracts: capture 1 (the type),
capture 2 (the whole parenthesized scope group, parentheses included), and
capture 3 (the description). -/
structure CommitMetadata where
  type : List Char
  scope : Option (List Char)
  description : List Char
  deriving DecidableEq, Repr

/-- The scope-group path of the match: the remainder after the type must open
with a parenthesis and the greedy group body must succeed. -/
def scopePath (t rest : List Char) : Option CommitMetadata :=
  match rest with
  | '(' :: s =>
    (findGreedy s s.length).map (fun r => ⟨t, some ('(' :: (r.1 ++ [')'])), r.2⟩)
  | _ => none

/-- After the type matched: the engine prefers to match the optional scope
group and falls back to skipping it, in which case the tail must follow the
type directly. -/
def afterType (t rest : List Char) : Option CommitMetadata :=
  (scopePath t rest).orElse (fun _ => (matchColonDesc rest).map (fun dsc => ⟨t, none, dsc⟩))

/-- Embedding of extractCommitMetadata from src/src/helpers.ts.  Total by
construction: every message yields either a metadata value or none, never an
exception. -/
def extractCommitMetadata (message : List Char) : Option CommitMetadata :=
  match matchType message with
  | none => none
  | some (t, rest) => afterType t rest

/-- Embedding of conventionalCommit from src/src/helpers.ts: the source tests
the same regular expression with the description capture dropped, so a
message passes exactly when extraction succeeds. -/
def conventionalCommit (message : List Char) : Bool :=
  (extractCommitMetadata message).isSome

example :
    extractCommitMetadata (strL "feat(ui): fix bug") =
      some ⟨strL "feat", some (strL "(ui)"), strL "fix bug"⟩ := by decide

example :
    extractCommitMetadata (strL "fix: Fixed timezone bug in date picker") =
      some ⟨strL "fix", none, strL "Fixed timezone bug in date picker"⟩ := by decide

example :
    extractCommitMetadata (strL "feat(a): b): c") =
      some ⟨strL "feat", some (strL "(a): b)"), strL "c"⟩ := by decide

example : conventionalCommit (strL "Commit that does not match") = false := by decide

/-- The type alternation is deterministic: since no type of the set is a
literal prefix of another, the unique type that prefixes the message is found
whatever the remainder is. -/
lemma matchType_mem (t : List Char) (rest : List Char) (ht : t ∈ ctypes) :
    matchType (t ++ rest) = some (t, rest) := by
  simp only [ctypes, List.mem_cons, List.not_mem_nil, or_false] at ht
  rcases ht with rfl | rfl | rfl | rfl | rfl | rfl | rfl | rfl | rfl | rfl | rfl
  all_goals rfl

lemma matchColonDesc_of_all (d : List Char) (hd0 : d ≠ []) (hdDot : d.all jsDot = true) :
    matchColonDesc (':' :: ' ' :: d) = some d := by
  have htw : d.takeWhile jsDot = d :=
    List.takeWhile_eq_self_iff.mpr (fun a ha => List.all_eq_true.mp hdDot a ha)
  cases d with
  | nil => exact absurd rfl hd0
  | cons c cs =>
    show (if (List.takeWhile jsDot (c :: cs)).isEmpty then none
          else some (List.takeWhile jsDot (c :: cs))) = some (c :: cs)
    rw [htw]
    rfl

/-- The backtracking attempt at exactly the intended inner length succeeds. -/
lemma tryInner_at (s d : List Char) (hs0 : s ≠ []) (hs1 : s.all jsDot = true)
    (hd0 : d ≠ []) (hdDot : d.all jsDot = true) :
    tryInner (s ++ ')' :: ':' :: ' ' :: d) s.length = some (s, d) := by
  have hi0 : ¬ s.length = 0 := by
    simpa [List.length_eq_zero] using hs0
  unfold tryInner
  rw [List.take_left, List.drop_left]
  rw [if_neg hi0, if_neg (by simp [hs1])]
  simp [matchColonDesc_of_all d hd0 hdDot]

/-- Every backtracking attempt at an inner length beyond the intended one
fails, because the description holds no closing parenthesis. -/
lemma tryInner_gt (s d : List Char) (i : Nat) (hgt : s.length < i)
    (hdP : d.all (fun c => !decide (c = ')')) = true) :
    tryInner (s ++ ')' :: ':' :: ' ' :: d) i = none := by
  obtain ⟨j, rfl⟩ : ∃ j, i = s.length + (j + 1) := ⟨i - s.length - 1, by omega⟩
  unfold tryInner
  rw [if_neg (by omega : ¬ s.length + (j + 1) = 0)]
  cases hall : ((s ++ ')' :: ':' :: ' ' :: d).take (s.length + (j + 1))).all jsDot with
  | false => rw [if_pos (by simp [hall])]
  | true =>
    rw [if_neg (by simp [hall]), List.drop_append]
    cases j with
    | zero => rfl
    | succ j1 =>
      cases j1 with
      | zero => rfl
      | succ j2 =>
        simp only [List.drop_succ_cons]
        cases hD : d.drop j2 with
        | nil => rfl
        | cons c cs =>
          have hc : c ∈ d := List.mem_of_mem_drop (by rw [hD]; exact List.mem_cons_self c cs)
          have hcne : ¬ (c = ')') := by
            have := List.all_eq_true.mp hdP c hc
            simpa using this
          simp [hcne]

/-- The greedy scope group of the regex settles on exactly the intended inner
run: longer attempts all fail and the attempt at the intended length wins
before any shorter one is tried. -/
lemma findGreedy_hit (s d : List Char) (hs0 : s ≠ []) (hs1 : s.all jsDot = true)
    (hd0 : d ≠ []) (hdDot : d.all jsDot = true)
    (hdP : d.all (fun c => !decide (c = ')')) = true) :
    ∀ n, s.length ≤ n →
      findGreedy (s ++ ')' :: ':' :: ' ' :: d) n = some (s, d) := by
  intro n
  induction n with
  | zero =>
    intro h1
    exact absurd (List.length_eq_zero.mp (Nat.le_zero.mp h1)) hs0
  | succ m ih =>
    intro h1
    simp only [findGreedy]
    by_cases hm : s.length = m + 1
    · rw [← hm, tryInner_at s d hs0 hs1 hd0 hdDot]
      rfl
    · rw [tryInner_gt s d (m + 1) (by omega) hdP]
      exact ih (by omega)

lemma extract_of_matchType (message t rest : List Char)
    (h : matchType message = some (t, rest)) :
    extractCommitMetadata message = afterType t rest := by
  unfold extractCommitMetadata
  rw [h]

lemma scopePath_open (t s : List Char) :
    scopePath t ('(' :: s) =
      (findGreedy s s.length).map (fun r => ⟨t, some ('(' :: (r.1 ++ [')'])), r.2⟩) := rfl

/-- Claim C3 counterexample: two messages of the claimed form
type(scope): description on which the code contradicts the claim as stated.
With description update schema(newline)more, the regex dot stops at the line
terminator, so the captured description is update schema, not the full
remainder after the colon-space separator; and with a scope containing a line
terminator the message does not match at all, although it has a unique
decomposition of the claimed form. -/
theorem claim3_counterexample :
    extractCommitMetadata
        (strL "fix" ++ '(' :: (strL "db" ++ ')' :: ':' :: ' ' :: strL "update schema\nmore")) =
      some ⟨strL "fix", some (strL "(db)"), strL "update schema"⟩
    ∧ strL "update schema" ≠ strL "update schema\nmore"
    ∧ extractCommitMetadata
        (strL "feat" ++ '(' :: (strL "a\nb" ++ ')' :: ':' :: ' ' :: strL "x")) = none := by
  refine ⟨by decide, by decide, by decide⟩

/-- Claim C3 (amended): for every message of the form type(scope): description
with the type in the fixed set, a nonempty scope free of line terminators and
a nonempty description free of line terminators and of closing parentheses,
extraction yields exactly the type, the parenthesized scope group that
follows the type, and the description after the colon-space separator.  The
restrictions are forced: the regex dot excludes line terminators, so a
description is cut at its first line terminator and a scope holding one never
matches (see the counterexample), and a description holding a closing
parenthesis makes the greedy group absorb it, leaving the claimed
decomposition ambiguous.  A message with the type in different casing and a
message whose pattern occurrence is not anchored at the start both yield no
match.  The parser is a total function, so it never throws. -/
theorem claim3 :
    (∀ t s d : List Char, t ∈ ctypes → s ≠ [] → s.all jsDot = true → d ≠ [] →
        d.all jsDot = true → d.all (fun c => !decide (c = ')')) = true →
        extractCommitMetadata (t ++ '(' :: (s ++ ')' :: ':' :: ' ' :: d)) =
          some ⟨t, some ('(' :: (s ++ [')'])), d⟩)
    ∧ extractCommitMetadata (strL "Feat(ui): x") = none
    ∧ extractCommitMetadata (strL "say feat(ui): x") = none := by
  refine ⟨?_, by decide, by decide⟩
  intro t s d ht hs0 hs1 hd0 hdDot hdP
  rw [extract_of_matchType _ t ('(' :: (s ++ ')' :: ':' :: ' ' :: d))
      (matchType_mem t _ ht)]
  unfold afterType
  rw [scopePath_open,
    findGreedy_hit s d hs0 hs1 hd0 hdDot hdP (s ++ ')' :: ':' :: ' ' :: d).length
      (by simp [List.length_append])]
  rfl

/-- Claim C3 witness: the universal part applied to the concrete message
feat(ui): fix bug. -/
theorem claim3_witness :
    strL "feat" ∈ ctypes
    ∧ extractCommitMetadata
        (strL "feat" ++ '(' :: (strL "ui" ++ ')' :: ':' :: ' ' :: strL "fix bug")) =
      some ⟨strL "feat", some ('(' :: (strL "ui" ++ [')'])), strL "fix bug"⟩ :=
  ⟨by decide, claim3.1 (strL "feat") (strL "ui") (strL "fix bug") (by decide) (by decide)
      (by decide) (by decide) (by decide) (by decide)⟩

/-! ## Commit log data and the relevance pipeline (processCommits) -/

/-- A commit as produced by gitLog: sha and message header. -/
structure GitLog where
  sha : List Char
  message : List Char
  deriving DecidableEq, Repr

/-- Modelled from the spec: the structured response of the build-graph oracle.
The DryRunJson type lives in src/turbo.ts, which is not among the sources;
section 6 of the spec gives its shape as monorepo : bool, packages : [string]. -/
structure DryRunJson where
  monorepo : Bool
  packages : List (List Char)
  deriving DecidableEq, Repr

/-- The observable outcome of the per-commit external invocations inside
processCommits: the exit code of git checkout, the exit code of the turbo dry
run, and the dry-run stdout as JSON.parse sees it — some json when the stdout
parses as a dry-run response, none when it does not (for example, empty
stdout). -/
structure OracleResult where
  checkoutExit : Nat
  turboExit : Nat
  output : Option DryRunJson
  deriving DecidableEq, Repr

/-- Embedding of processCommits from src/src/helpers.ts, the external
invocations supplied by env.  A commit whose checkout exits nonzero is
skipped, then a commit whose turbo invocation exits nonzero is skipped; when
both exit zero the stdout goes through JSON.parse, whose failure (modelled by
output = none) escapes the whole loop as an exception, here Except.error.
Otherwise the commit is kept exactly when the response is not a monorepo or
lists the workspace, and the message is a conventional commit. -/
def processCommits (env : GitLog → OracleResult) (commits : List GitLog)
    (workspace : List Char) : Except Unit (List GitLog) :=
  match commits with
  | [] => Except.ok []
  | c :: rest =>
    let r := env c
    if r.checkoutExit ≠ 0 then processCommits env rest workspace
    else if r.turboExit ≠ 0 then processCommits env rest workspace
    else
      match r.output with
      | none => Except.error ()
      | some json =>
        if (!json.monorepo || decide (workspace ∈ json.packages)) &&
            conventionalCommit c.message
        then (processCommits env rest workspace).map (fun tail => c :: tail)
        else processCommits env rest workspace

/-- Whether processCommits keeps a commit, as a function of its oracle
outcome: both invocations exit zero and the kept-branch condition holds. -/
def includeCommit (env : GitLog → OracleResult) (workspace : List Char) (c : GitLog) : Bool :=
  decide ((env c).checkoutExit = 0) && decide ((env c).turboExit = 0) &&
    (match (env c).output with
     | none => false
     | some json =>
       (!json.monorepo || decide (workspace ∈ json.packages)) && conventionalCommit c.message)

lemma processCommits_ok (env : GitLog → OracleResult) (workspace : List Char) :
    ∀ commits : List GitLog,
      (∀ c ∈ commits, (env c).checkoutExit = 0 → (env c).turboExit = 0 →
        (env c).output ≠ none) →
      processCommits env commits workspace =
        Except.ok (commits.filter (includeCommit env workspace)) := by
  intro commits
  induction commits with
  | nil => intro _; rfl
  | cons c rest ih =>
    intro h
    have hrest : ∀ c' ∈ rest, (env c').checkoutExit = 0 → (env c').turboExit = 0 →
        (env c').output ≠ none :=
      fun c' hc' => h c' (List.mem_cons_of_mem c hc')
    by_cases h1 : (env c).checkoutExit = 0
    case neg =>
      have hinc : includeCommit env workspace c = false := by
        simp [includeCommit, h1]
      rw [show processCommits env (c :: rest) workspace =
          processCommits env rest workspace by simp [processCommits, h1],
        ih hrest, List.filter_cons_of_neg (by simp [hinc])]
    case pos =>
      by_cases h2 : (env c).turboExit = 0
      case neg =>
        have hinc : includeCommit env workspace c = false := by
          simp [includeCommit, h2]
        rw [show processCommits env (c :: rest) workspace =
            processCommits env rest workspace by simp [processCommits, h1, h2],
          ih hrest, List.filter_cons_of_neg (by simp [hinc])]
      case pos =>
        cases ho : (env c).output with
        | none => exact absurd ho (h c (List.mem_cons_self c rest) h1 h2)
        | some json =>
          have hunf : processCommits env (c :: rest) workspace =
              (if (!json.monorepo || decide (workspace ∈ json.packages)) &&
                  conventionalCommit c.message
               then (processCommits env rest workspace).map (fun tail => c :: tail)
               else processCommits env rest workspace) := by
            simp [processCommits, h1, h2, ho]
          have hincEq : includeCommit env workspace c =
              ((!json.monorepo || decide (workspace ∈ json.packages)) &&
                conventionalCommit c.message) := by
            simp [includeCommit, h1, h2, ho]
          cases hk : (!json.monorepo || decide (workspace ∈ json.packages)) &&
              conventionalCommit c.message with
          | true =>
            rw [hunf, if_pos hk, ih hrest,
              List.filter_cons_of_pos (by rw [hincEq, hk])]
            rfl
          | false =>
            rw [hunf, if_neg (by rw [hk]; simp), ih hrest,
              List.filter_cons_of_neg (by rw [hincEq, hk]; simp)]

/-- Claim C4 counterexample: a commit whose checkout and oracle invocation
both exit zero but whose oracle produced no parseable output.  The source
feeds the stdout to JSON.parse, which throws, so this per-commit oracle
failure escapes processCommits as a pipeline-level error instead of being
swallowed. -/
theorem claim4_counterexample :
    processCommits (fun _ => ⟨0, 0, none⟩) [⟨strL "abc", strL "fix: bug"⟩] (strL "ws") =
      Except.error () := rfl

/-- Claim C4 (amended): a commit whose checkout step fails, or whose oracle
invocation exits nonzero, is silently excluded and never surfaces as a
pipeline-level error — provided every zero-exit oracle invocation produced
parseable output.  A zero-exit invocation with no parseable output, by
contrast, escapes as an error, so the claim holds only for the nonzero-exit
failure modes. -/
theorem claim4_amended (env : GitLog → OracleResult) (workspace : List Char)
    (commits : List GitLog)
    (h : ∀ c ∈ commits, (env c).checkoutExit = 0 → (env c).turboExit = 0 →
      (env c).output ≠ none) :
    processCommits env commits workspace =
      Except.ok (commits.filter (includeCommit env workspace))
    ∧ ∀ c ∈ commits, ¬ ((env c).checkoutExit = 0 ∧ (env c).turboExit = 0) →
        c ∉ commits.filter (includeCommit env workspace) := by
  refine ⟨processCommits_ok env workspace commits h, ?_⟩
  intro c _ hfail hmem
  have hp := List.of_mem_filter hmem
  simp only [includeCommit, Bool.and_eq_true, decide_eq_true_eq] at hp
  exact hfail ⟨hp.1.1, hp.1.2⟩

/-- Claim C4 witness: the amended statement applied to one commit whose
checkout exits nonzero. -/
theorem claim4_witness :
    (∀ c ∈ [(⟨strL "a", strL "fix: x"⟩ : GitLog)],
      ((fun (_ : GitLog) => (⟨1, 0, some ⟨false, []⟩⟩ : OracleResult)) c).checkoutExit = 0 →
      ((fun (_ : GitLog) => (⟨1, 0, some ⟨false, []⟩⟩ : OracleResult)) c).turboExit = 0 →
      ((fun (_ : GitLog) => (⟨1, 0, some ⟨false, []⟩⟩ : OracleResult)) c).output ≠ none)
    ∧ (processCommits (fun (_ : GitLog) => (⟨1, 0, some ⟨false, []⟩⟩ : OracleResult))
          [(⟨strL "a", strL "fix: x"⟩ : GitLog)] (strL "ws") =
        Except.ok ([(⟨strL "a", strL "fix: x"⟩ : GitLog)].filter
          (includeCommit (fun (_ : GitLog) => (⟨1, 0, some ⟨false, []⟩⟩ : OracleResult))
            (strL "ws")))
      ∧ ∀ c ∈ [(⟨strL "a", strL "fix: x"⟩ : GitLog)],
          ¬ (((fun (_ : GitLog) => (⟨1, 0, some ⟨false, []⟩⟩ : OracleResult)) c).checkoutExit = 0
            ∧ ((fun (_ : GitLog) => (⟨1, 0, some ⟨false, []⟩⟩ : OracleResult)) c).turboExit = 0) →
          c ∉ [(⟨strL "a", strL "fix: x"⟩ : GitLog)].filter
            (includeCommit (fun (_ : GitLog) => (⟨1, 0, some ⟨false, []⟩⟩ : OracleResult))
              (strL "ws"))) :=
  ⟨by decide, claim4_amended (fun _ => ⟨1, 0, some ⟨false, []⟩⟩) (strL "ws")
    [⟨strL "a", strL "fix: x"⟩] (by decide)⟩

/-- Claim C6: when every per-commit invocation succeeds (zero exit codes and
parseable oracle output), the relevance filter returns, in original order,
the sub-sequence of exactly those commits whose message matches the
conventional grammar and whose oracle response reports either that the
repository is not a monorepo or that the workspace is among the affected
packages.  In particular a commit whose message fails the grammar is excluded
even when the oracle lists the workspace, since the filter condition is a
conjunction. -/
theorem claim6 (env : GitLog → OracleResult) (workspace : List Char)
    (commits : List GitLog) (json : GitLog → DryRunJson)
    (h : ∀ c ∈ commits, env c = ⟨0, 0, some (json c)⟩) :
    processCommits env commits workspace =
      Except.ok (commits.filter (fun c =>
        (!(json c).monorepo || decide (workspace ∈ (json c).packages)) &&
          conventionalCommit c.message)) := by
  rw [processCommits_ok env workspace commits (fun c hc => by rw [h c hc]; simp)]
  congr 1
  apply List.filter_congr
  intro c hc
  simp [includeCommit, h c hc]

/-- Claim C6 witness: the statement applied to two concrete commits, one
conventional and one not, under an oracle that reports a monorepo affecting
the workspace. -/
theorem claim6_witness :
    (∀ c ∈ [(⟨strL "a", strL "fix: x"⟩ : GitLog), ⟨strL "b", strL "junk"⟩],
      (fun (_ : GitLog) => (⟨0, 0, some ⟨true, [strL "ws"]⟩⟩ : OracleResult)) c =
        ⟨0, 0, some ((fun (_ : GitLog) => (⟨true, [strL "ws"]⟩ : DryRunJson)) c)⟩)
    ∧ processCommits (fun (_ : GitLog) => (⟨0, 0, some ⟨true, [strL "ws"]⟩⟩ : OracleResult))
        [(⟨strL "a", strL "fix: x"⟩ : GitLog), ⟨strL "b", strL "junk"⟩] (strL "ws") =
      Except.ok ([(⟨strL "a", strL "fix: x"⟩ : GitLog), ⟨strL "b", strL "junk"⟩].filter
        (fun c =>
          (!((fun (_ : GitLog) => (⟨true, [strL "ws"]⟩ : DryRunJson)) c).monorepo ||
            decide (strL "ws" ∈ ((fun (_ : GitLog) =>
              (⟨true, [strL "ws"]⟩ : DryRunJson)) c).packages)) &&
          conventionalCommit c.message)) :=
  ⟨by decide, claim6 (fun _ => ⟨0, 0, some ⟨true, [strL "ws"]⟩⟩) (strL "ws")
    [⟨strL "a", strL "fix: x"⟩, ⟨strL "b", strL "junk"⟩]
    (fun _ => ⟨true, [strL "ws"]⟩) (by decide)⟩

/-! ## gitLog: range argument construction and output parsing -/

/-- The argv list gitLog passes to the external git invocation.  The range is
built with a template string and passed as a single array element, so for
identical refs the revision and the count limit share one argument. -/
def gitLogArgs (fromRef toRef : List Char) : List (List Char) :=
  [strL "log",
   if fromRef = toRef then toRef ++ strL " -1" else fromRef ++ strL ".." ++ toRef,
   strL "--pretty=format:%H %s"]

/-- Claim C7: evaluation of the argument construction of gitLog at identical
refs.  The revision and the count limit are embedded together in one argv
element, separated by a space, and the count limit is never passed as its own
argument; git therefore receives the unknown revision and exits nonzero,
making gitLog throw instead of returning the single commit at the ref. -/
theorem claim7_code_bug :
    gitLogArgs (strL "abc") (strL "abc") =
      [strL "log", strL "abc -1", strL "--pretty=format:%H %s"]
    ∧ strL "-1" ∉ gitLogArgs (strL "abc") (strL "abc") := by
  constructor <;> decide

/-- JavaScript String.split with a one-character separator: the empty string
splits to one empty piece, and a trailing separator yields a trailing empty
piece. -/
def splitOnChar (sep : Char) : List Char → List (List Char)
  | [] => [[]]
  | c :: rest =>
    if c = sep then [] :: splitOnChar sep rest
    else
      match splitOnChar sep rest with
      | [] => [[c]]
      | x :: xs => (c :: x) :: xs

lemma splitOnChar_ne_nil (sep : Char) : ∀ l, splitOnChar sep l ≠ [] := by
  intro l
  cases l with
  | nil => simp [splitOnChar]
  | cons c rest =>
    by_cases h : c = sep
    · simp [splitOnChar, h]
    · simp only [splitOnChar, if_neg h]
      cases splitOnChar sep rest <;> simp

/-- JavaScript Array.join with a separator. -/
def joinSep (sep : List Char) : List (List Char) → List Char
  | [] => []
  | [x] => x
  | x :: xs => x ++ sep ++ joinSep sep xs

lemma joinSep_splitOnChar (sep : Char) : ∀ l, joinSep [sep] (splitOnChar sep l) = l := by
  intro l
  induction l with
  | nil => rfl
  | cons c rest ih =>
    by_cases h : c = sep
    · rw [show splitOnChar sep (c :: rest) = [] :: splitOnChar sep rest by
        simp [splitOnChar, h]]
      cases hs : splitOnChar sep rest with
      | nil => exact absurd hs (splitOnChar_ne_nil sep rest)
      | cons x xs =>
        rw [hs] at ih
        show joinSep [sep] ([] :: x :: xs) = c :: rest
        rw [show joinSep [sep] ([] :: x :: xs) = [] ++ [sep] ++ joinSep [sep] (x :: xs)
          from rfl, ih, h]
        rfl
    · rw [show splitOnChar sep (c :: rest) =
          (match splitOnChar sep rest with
           | [] => [[c]]
           | x :: xs => (c :: x) :: xs) by simp [splitOnChar, h]]
      cases hs : splitOnChar sep rest with
      | nil => exact absurd hs (splitOnChar_ne_nil sep rest)
      | cons x xs =>
        rw [hs] at ih
        cases xs with
        | nil =>
          show joinSep [sep] [c :: x] = c :: rest
          have hx : x = rest := ih
          rw [show joinSep [sep] [c :: x] = c :: x from rfl, hx]
        | cons y ys =>
          show joinSep [sep] ((c :: x) :: y :: ys) = c :: rest
          rw [show joinSep [sep] ((c :: x) :: y :: ys) =
              (c :: x) ++ [sep] ++ joinSep [sep] (y :: ys) from rfl, ← ih]
          rw [show joinSep [sep] (x :: y :: ys) = x ++ [sep] ++ joinSep [sep] (y :: ys)
            from rfl]
          simp [List.append_assoc]

/-- One line of git log output as destructured by gitLog: the piece before
the first space is the sha, the remaining space-separated pieces rejoined
with spaces form the message.  The nil branch is unreachable because a split
result is never empty. -/
def parseLine (line : List Char) : GitLog :=
  match splitOnChar ' ' line with
  | [] => ⟨[], []⟩
  | sha :: rest => ⟨sha, joinSep [' '] rest⟩

/-- The commit list gitLog builds from the raw stdout of the range query. -/
def parseGitLogOutput (out : List Char) : List GitLog :=
  (splitOnChar '\n' out).map parseLine

/-- Embedding of gitLog as a function of the exit code and the stdout of the
underlying git invocation. -/
def gitLogModel (exit : Nat) (stdout : List Char) : Except (List Char) (List GitLog) :=
  if exit ≠ 0 then Except.error (strL "Failed to get git log")
  else Except.ok (parseGitLogOutput stdout)

lemma parseLine_spec : ∀ line : List Char,
    parseLine line =
      ⟨line.takeWhile (fun c => !decide (c = ' ')),
       (line.dropWhile (fun c => !decide (c = ' '))).drop 1⟩ := by
  intro line
  induction line with
  | nil => rfl
  | cons c cs ih =>
    by_cases h : c = ' '
    · subst h
      unfold parseLine
      rw [show splitOnChar ' ' (' ' :: cs) = [] :: splitOnChar ' ' cs by
        simp [splitOnChar]]
      show (⟨[], joinSep [' '] (splitOnChar ' ' cs)⟩ : GitLog) = _
      rw [joinSep_splitOnChar]
      rfl
    · unfold parseLine at ih ⊢
      cases hs : splitOnChar ' ' cs with
      | nil => exact absurd hs (splitOnChar_ne_nil ' ' cs)
      | cons x xs =>
        rw [hs] at ih
        rw [show splitOnChar ' ' (c :: cs) =
            (match splitOnChar ' ' cs with
             | [] => [[c]]
             | x :: xs => (c :: x) :: xs) by simp [splitOnChar, h], hs]
        show (⟨c :: x, joinSep [' '] xs⟩ : GitLog) = _
        have hx : x = cs.takeWhile (fun c => !decide (c = ' ')) :=
          congrArg GitLog.sha ih
        have hmsg : joinSep [' '] xs = (cs.dropWhile (fun c => !decide (c = ' '))).drop 1 :=
          congrArg GitLog.message ih
        rw [List.takeWhile_cons, List.dropWhile_cons]
        simp [h, ← hx, ← hmsg]

/-- Claim C10: a zero-exit log query with empty stdout yields the one-element
list holding the degenerate commit with empty sha and empty message, not the
empty list; and in general, for zero exit, the result has one element per
newline-separated line of the raw output, with the text before the first
space as the sha and the remainder after that first space as the message. -/
theorem claim10 :
    gitLogModel 0 [] = Except.ok [⟨[], []⟩]
    ∧ ∀ stdout, gitLogModel 0 stdout =
        Except.ok ((splitOnChar '\n' stdout).map (fun line =>
          ⟨line.takeWhile (fun c => !decide (c = ' ')),
           (line.dropWhile (fun c => !decide (c = ' '))).drop 1⟩)) := by
  constructor
  · rfl
  · intro stdout
    unfold gitLogModel
    rw [if_neg (by simp)]
    unfold parseGitLogOutput
    rw [show parseLine = fun line =>
        (⟨line.takeWhile (fun c => !decide (c = ' ')),
          (line.dropWhile (fun c => !decide (c = ' '))).drop 1⟩ : GitLog)
      from funext parseLine_spec]

/-! ## Grouping (groupCommits) -/

/-- One reduce step of groupCommits: push the metadata onto the array of its
type when the key exists, otherwise append the new key at the end.  This
mirrors JavaScript object property insertion order, which the source relies
on for the non-numeric type keys. -/
def insertGroup : List (List Char × List CommitMetadata) → CommitMetadata →
    List (List Char × List CommitMetadata)
  | [], m => [(m.type, [m])]
  | (k, g) :: rest, m =>
    if k = m.type then (k, g ++ [m]) :: rest else (k, g) :: insertGroup rest m

/-- Embedding of groupCommits from src/src/helpers.ts: a reduce over the
metadata list starting from the empty object. -/
def groupCommits (commits : List CommitMetadata) :
    List (List Char × List CommitMetadata) :=
  commits.foldl insertGroup []

/-- The key order the spec describes, written from its words: the types in
the order they are first encountered. -/
def firstSeenKeys (ts : List (List Char)) : List (List Char) :=
  ts.foldl (fun ks t => if t ∈ ks then ks else ks ++ [t]) []

/-- Lookup of the group stored under one type key, the empty list when the
key is absent. -/
def lookupGroup : List (List Char × List CommitMetadata) → List Char → List CommitMetadata
  | [], _ => []
  | (k, g) :: rest, t => if k = t then g else lookupGroup rest t

lemma insertGroup_keys (m : CommitMetadata) :
    ∀ acc, (insertGroup acc m).map Prod.fst =
      if m.type ∈ acc.map Prod.fst then acc.map Prod.fst
      else acc.map Prod.fst ++ [m.type] := by
  intro acc
  induction acc with
  | nil => simp [insertGroup]
  | cons kv rest ih =>
    obtain ⟨k, g⟩ := kv
    by_cases h : k = m.type
    · rw [show insertGroup ((k, g) :: rest) m = (k, g ++ [m]) :: rest by
        simp [insertGroup, h]]
      simp only [List.map_cons]
      rw [if_pos (show m.type ∈ k :: rest.map Prod.fst from
        List.mem_cons.mpr (Or.inl h.symm))]
    · rw [show insertGroup ((k, g) :: rest) m = (k, g) :: insertGroup rest m by
        simp [insertGroup, h]]
      simp only [List.map_cons]
      have hne : m.type ≠ k := Ne.symm h
      by_cases h2 : m.type ∈ rest.map Prod.fst
      · rw [if_pos (show m.type ∈ k :: rest.map Prod.fst from
          List.mem_cons.mpr (Or.inr h2))]
        simp [ih, h2]
      · rw [if_neg (show ¬ m.type ∈ k :: rest.map Prod.fst from by
          intro hmem
          rcases List.mem_cons.mp hmem with e | e
          exacts [hne e, h2 e])]
        simp [ih, h2]

lemma lookupGroup_insert (m : CommitMetadata) (t : List Char) :
    ∀ acc, lookupGroup (insertGroup acc m) t =
      if t = m.type then lookupGroup acc t ++ [m] else lookupGroup acc t := by
  intro acc
  induction acc with
  | nil =>
    by_cases h : t = m.type
    · simp [insertGroup, lookupGroup, h]
    · simp [insertGroup, lookupGroup, h, Ne.symm h]
  | cons kv rest ih =>
    obtain ⟨k, g⟩ := kv
    by_cases hk : k = m.type
    · rw [show insertGroup ((k, g) :: rest) m = (k, g ++ [m]) :: rest by
        simp [insertGroup, hk]]
      by_cases ht : k = t
      · rw [show lookupGroup ((k, g ++ [m]) :: rest) t = g ++ [m] by
          simp [lookupGroup, ht]]
        rw [if_pos (ht ▸ hk ▸ rfl : t = m.type)]
        rw [show lookupGroup ((k, g) :: rest) t = g by simp [lookupGroup, ht]]
      · rw [show lookupGroup ((k, g ++ [m]) :: rest) t = lookupGroup rest t by
          simp [lookupGroup, ht]]
        rw [if_neg (show ¬ t = m.type from by rw [← hk]; exact Ne.symm ht)]
        rw [show lookupGroup ((k, g) :: rest) t = lookupGroup rest t by
          simp [lookupGroup, ht]]
    · rw [show insertGroup ((k, g) :: rest) m = (k, g) :: insertGroup rest m by
        simp [insertGroup, hk]]
      by_cases ht : k = t
      · rw [show lookupGroup ((k, g) :: insertGroup rest m) t = g by
          simp [lookupGroup, ht]]
        rw [if_neg (show ¬ t = m.type from by rw [← ht]; exact hk)]
        rw [show lookupGroup ((k, g) :: rest) t = g by simp [lookupGroup, ht]]
      · rw [show lookupGroup ((k, g) :: insertGroup rest m) t =
            lookupGroup (insertGroup rest m) t by
          simp [lookupGroup, ht]]
        rw [show lookupGroup ((k, g) :: rest) t = lookupGroup rest t by
          simp [lookupGroup, ht]]
        exact ih

lemma groupCommits_inv :
    ∀ (l : List CommitMetadata) (acc : List (List Char × List CommitMetadata)),
      ((l.foldl insertGroup acc).map Prod.fst =
        l.foldl (fun ks m => if m.type ∈ ks then ks else ks ++ [m.type]) (acc.map Prod.fst))
      ∧ ∀ t, lookupGroup (l.foldl insertGroup acc) t =
          lookupGroup acc t ++ l.filter (fun m => decide (m.type = t)) := by
  intro l
  induction l with
  | nil => intro acc; simp
  | cons m rest ih =>
    intro acc
    constructor
    · show ((rest.foldl insertGroup (insertGroup acc m)).map Prod.fst) = _
      rw [(ih (insertGroup acc m)).1, insertGroup_keys]
      rfl
    · intro t
      show lookupGroup (rest.foldl insertGroup (insertGroup acc m)) t = _
      rw [(ih (insertGroup acc m)).2 t, lookupGroup_insert]
      rw [List.filter_cons]
      by_cases h : t = m.type
      · rw [if_pos h, if_pos (by simp [h])]
        simp [List.append_assoc]
      · rw [if_neg h, if_neg (by simp; exact fun e => h e.symm)]

/-- Claim C8: grouping yields its keys in the order the types were first
encountered while scanning the list, and the group stored under each type
holds exactly the entries of that type in their original relative order. -/
theorem claim8 (l : List CommitMetadata) :
    (groupCommits l).map Prod.fst = firstSeenKeys (l.map (fun m => m.type))
    ∧ ∀ t, lookupGroup (groupCommits l) t = l.filter (fun m => decide (m.type = t)) := by
  have h := groupCommits_inv l []
  constructor
  · rw [groupCommits, h.1, firstSeenKeys, List.foldl_map]
    rfl
  · intro t
    rw [groupCommits, h.2 t]
    rfl

/-! ## Top-level orchestration (run) -/

/-- A value passed to a setOutput call: a boolean or a string. -/
inductive OutVal
  | b : Bool → OutVal
  | s : List Char → OutVal
  deriving DecidableEq, Repr

/-- The response of a successful release creation. -/
structure ReleaseResponse where
  html_url : List Char
  name : List Char
  body : List Char
  deriving DecidableEq, Repr

/-- The observable outcome of one run: the warnings reported, the outputs set
in call order, the message of the setFailed call when the run is marked
failed, and the releases created. -/
structure RunResult where
  warnings : List (List Char)
  outputs : List (List Char × OutVal)
  failedWith : Option (List Char)
  releases : List (List Char × List Char)
  deriving DecidableEq, Repr

/-- Embedding of commitsToMetadata from src/src/helpers.ts: extract each
message and drop the non-matching ones. -/
def commitsToMetadata (commits : List GitLog) : List CommitMetadata :=
  (commits.map (fun c => extractCommitMetadata c.message)).filterMap id

/-- The fixed type-to-emoji table of the source. -/
def conventionalNameToEmoji : List (List Char × List Char) :=
  [(strL "build", strL "👷"), (strL "chore", strL "🧹"), (strL "ci", strL "🤖"),
   (strL "docs", strL "📝"), (strL "feat", strL "✨"), (strL "fix", strL "🐛"),
   (strL "perf", strL "⚡️"), (strL "refactor", strL "♻️"), (strL "revert", strL "⏪"),
   (strL "style", strL "🎨"), (strL "test", strL "✅")]

/-- The emoji lookup used while rendering the release body. -/
def emojiFor (t : List Char) : List Char :=
  ((conventionalNameToEmoji.find? (fun kv => decide (kv.1 = t))).map (fun kv => kv.2)).getD []

/-- The release body built by run: one section per group in iteration order,
each a header line of emoji and type, a blank line, and one bullet line per
description; sections joined by two blank lines. -/
def buildReleaseBody (grouped : List (List Char × List CommitMetadata)) : List Char :=
  joinSep (strL "\n\n\n")
    (grouped.map (fun kv =>
      emojiFor kv.1 ++ strL " **" ++ kv.1 ++ strL "**\n\n" ++
        joinSep (strL "\n") (kv.2.map (fun m => strL "- " ++ m.description))))

/-- Embedding of run from src/src/main.ts, the effectful collaborators passed
as Except-valued inputs: the git log result, the relevance filter as a
function of the commits, and the release creation as a function of title and
body.  The catch handler of the source sets the released output to false and
marks the run failed with the error message; the finally block only restores
the branch and touches no observable output, so it is not modelled. -/
def run (releaseTitle : List Char)
    (gitLogRes : Except (List Char) (List GitLog))
    (processRes : List GitLog → Except (List Char) (List GitLog))
    (releaseRes : List Char → List Char → Except (List Char) ReleaseResponse) :
    RunResult :=
  match gitLogRes with
  | Except.error e => ⟨[], [(strL "released", OutVal.b false)], some e, []⟩
  | Except.ok commits =>
    match processRes commits with
    | Except.error e => ⟨[], [(strL "released", OutVal.b false)], some e, []⟩
    | Except.ok relevantCommits =>
      if relevantCommits.length = 0 then
        ⟨[strL "No relevant commits found, exiting"],
         [(strL "released", OutVal.b false)], none, []⟩
      else
        let groupedMetadata := groupCommits (commitsToMetadata relevantCommits)
        let releaseBody := buildReleaseBody groupedMetadata
        match releaseRes releaseTitle releaseBody with
        | Except.error e => ⟨[], [(strL "released", OutVal.b false)], some e, []⟩
        | Except.ok release =>
          ⟨[], [(strL "released", OutVal.b true),
                (strL "release-url", OutVal.s release.html_url),
                (strL "release-title", OutVal.s release.name),
                (strL "release-body", OutVal.s release.body)], none,
           [(releaseTitle, releaseBody)]⟩

/-- Claim C9: whenever the filter leaves zero relevant commits, run reports
exactly one warning, sets only the released output and sets it to false, sets
none of the release outputs, creates no release, and is not marked failed. -/
theorem claim9 (releaseTitle : List Char) (commits : List GitLog)
    (processRes : List GitLog → Except (List Char) (List GitLog))
    (releaseRes : List Char → List Char → Except (List Char) ReleaseResponse)
    (h : processRes commits = Except.ok []) :
    run releaseTitle (Except.ok commits) processRes releaseRes =
      ⟨[strL "No relevant commits found, exiting"],
       [(strL "released", OutVal.b false)], none, []⟩ := by
  simp only [run]
  rw [h]
  rfl

/-- Claim C9 witness: the statement applied to a concrete empty filter
outcome. -/
theorem claim9_witness :
    ((fun (_ : List GitLog) => (Except.ok [] : Except (List Char) (List GitLog)))
        [(⟨strL "a", strL "docs: readme"⟩ : GitLog)] = Except.ok [])
    ∧ run (strL "my-app-2024-01-01-00-00")
        (Except.ok [(⟨strL "a", strL "docs: readme"⟩ : GitLog)])
        (fun _ => Except.ok []) (fun _ _ => Except.error (strL "unused")) =
      ⟨[strL "No relevant commits found, exiting"],
       [(strL "released", OutVal.b false)], none, []⟩ :=
  ⟨rfl, claim9 (strL "my-app-2024-01-01-00-00") [⟨strL "a", strL "docs: readme"⟩]
    (fun _ => Except.ok []) (fun _ _ => Except.error (strL "unused")) rfl⟩

end ReleaseAction
